import Mathlib

/-!
Verification development for the kotlin-native memory-manager core:
`ObjectFactory.hpp` (registry storage, producer/consumer queues, object factory),
`AvaliableProcessors.cpp` (CPU-count helper) and `FinalizerProcessor.hpp`
(finalizer processor interface).

The C++ is shallowly embedded: machine sizes become `Nat` with explicit
`% 2^32` where 32-bit overflow matters, node pointers become `Nat`
identifiers, the `next_` ownership links become a finite association list,
and the registry / producer / consumer states are explicit records on which
the operations are translated statement by statement from the source.
-/

namespace KotlinMM

/-- Modelled from the spec: `AlignUp` of the Alignment.hpp helper (the header is
not part of the sources here) rounds `x` up to the next multiple of `align`. -/
def AlignUp (x align : Nat) : Nat := (x + align - 1) / align * align

theorem le_alignUp (x a : Nat) (ha : 0 < a) : x ≤ AlignUp x a := by
  unfold AlignUp
  rcases Nat.eq_zero_or_pos x with hx | hx
  · simp [hx]
  have h := Nat.lt_div_mul_add (a := x + a - 1) ha
  omega

theorem dvd_alignUp (x a : Nat) : a ∣ AlignUp x a := dvd_mul_left a _

theorem alignUp_eq_of_dvd (x a : Nat) (ha : 0 < a) (h : a ∣ x) : AlignUp x a = x := by
  obtain ⟨c, rfl⟩ := h
  unfold AlignUp
  have h1 : a * c + a - 1 = a * c + (a - 1) := by omega
  rw [h1, Nat.mul_add_div ha, Nat.div_eq_of_lt (by omega), Nat.add_zero, Nat.mul_comm]

theorem alignUp_le (x a y : Nat) (ha : 0 < a) (hxy : x ≤ y) (hy : a ∣ y) :
    AlignUp x a ≤ y := by
  obtain ⟨d, rfl⟩ := hy
  unfold AlignUp
  have h1 : (x + a - 1) / a ≤ (a * d + a - 1) / a := Nat.div_le_div_right (by omega)
  have h2 : a * d + a - 1 = a * d + (a - 1) := by omega
  rw [h2, Nat.mul_add_div ha, Nat.div_eq_of_lt (show a - 1 < a by omega), Nat.add_zero] at h1
  calc (x + a - 1) / a * a ≤ d * a := Nat.mul_le_mul_right a h1
  _ = a * d := Nat.mul_comm _ _

theorem alignUp_add_of_dvd (x k a : Nat) (ha : 0 < a) (hk : a ∣ k) :
    AlignUp (x + k) a = AlignUp x a + k := by
  obtain ⟨c, rfl⟩ := hk
  unfold AlignUp
  have h1 : x + a * c + a - 1 = (x + a - 1) + c * a := by
    rw [Nat.mul_comm]; omega
  rw [h1, Nat.add_mul_div_right _ _ ha]
  ring

theorem alignUp_mono_align (x a b : Nat) (hb : 0 < b) (hab : a ∣ b) :
    AlignUp x a ≤ AlignUp x b := by
  have ha : 0 < a := Nat.pos_of_dvd_of_pos hab hb
  exact alignUp_le x a _ ha (le_alignUp x b hb) (dvd_trans hab (dvd_alignUp x b))

/-- Powers of two divide each other in `max` order; alignments in the source are
powers of two (`IsValidAlignment`). -/
theorem pow2_dvd_max (i j : Nat) : 2 ^ i ∣ max (2 ^ i) (2 ^ j) := by
  rcases Nat.le_total i j with h | h
  · rw [Nat.max_eq_right (Nat.pow_le_pow_right (by omega) h)]
    exact pow_dvd_pow 2 h
  · rw [Nat.max_eq_left (Nat.pow_le_pow_right (by omega) h)]

namespace Node

/-- `ObjectFactoryStorage::Node::GetSizeAndAlignmentForDataSize`, with the
compile-time constants `sizeof(Node)`, `alignof(Node)` and the `DataAlignment`
template parameter left symbolic. -/
def GetSizeAndAlignmentForDataSize (sizeofNode alignofNode dataAlignment dataSize : Nat) :
    Nat × Nat :=
  let dataSizeAligned := AlignUp dataSize dataAlignment
  let totalAlignment := max alignofNode dataAlignment
  let totalSize := AlignUp (sizeofNode + dataSizeAligned) totalAlignment
  (totalSize, totalAlignment)

/-- `ObjectFactoryStorage::Node::DataOffset`. -/
def DataOffset (sizeofNode dataAlignment : Nat) : Nat := AlignUp sizeofNode dataAlignment

/-- `ObjectFactoryStorage::Node::Data`: address of the trailing data region of
the node at address `nodeAddr`. -/
def Data (sizeofNode dataAlignment nodeAddr : Nat) : Nat :=
  nodeAddr + DataOffset sizeofNode dataAlignment

/-- `ObjectFactoryStorage::Node::FromData`: recover the node address from a data
region address by subtracting the fixed data offset. -/
def FromData (sizeofNode dataAlignment dataAddr : Nat) : Nat :=
  dataAddr - DataOffset sizeofNode dataAlignment

end Node

/-- `ObjectFactory::NodeRef::From(ObjHeader*)`: subtract
`offsetof(HeapObjHeader, object)` to reach the start of the heap record, then
`Node::FromData`. The same shape models the `ArrayHeader*` overload with
`offsetof(HeapArrayHeader, array)`. -/
def NodeRef.From (sizeofNode dataAlignment objectOffset objAddr : Nat) : Nat :=
  Node.FromData sizeofNode dataAlignment (objAddr - objectOffset)

/-- `ObjectFactory::ThreadQueue::CreateObject` returns the address of the
embedded `ObjHeader`, which lives at `offsetof(HeapObjHeader, object)` inside
the node's data region (where the `HeapObjHeader` is placement-constructed). -/
def CreateObject.returnedHandle (sizeofNode dataAlignment objectOffset nodeAddr : Nat) : Nat :=
  Node.Data sizeofNode dataAlignment nodeAddr + objectOffset

/-- `ObjectFactory::ThreadQueue::ArrayAllocatedDataSize`:
`membersSize = static_cast<uint32_t>(-instanceSize) * count` is computed in
unsigned 32-bit arithmetic, then `AlignUp(sizeof(HeapArrayHeader) + membersSize,
kObjectAlignment)` in `size_t` arithmetic. -/
def ArrayAllocatedDataSize (sizeofHeapArrayHeader objectAlignment : Nat)
    (instanceSize : Int) (count : Nat) : Nat :=
  let negSize : Nat := ((-instanceSize) % (2 ^ 32 : Int)).toNat
  let membersSize : Nat := negSize * count % 2 ^ 32
  AlignUp (sizeofHeapArrayHeader + membersSize) objectAlignment

/-- Result of `ObjectFactory::ThreadQueue::CreateArray` on a node placed at
`nodeAddr`: the data size it requests from `Producer::Insert`, the value stored
into the embedded `count_` field, and the returned `ArrayHeader*`. -/
structure ArrayCreation where
  dataSize : Nat
  storedCount : Nat
  arrayAddr : Nat
  deriving DecidableEq, Repr

/-- `ObjectFactory::ThreadQueue::CreateArray` (data-size request, `count_`
store, and returned pointer; the chain append itself is `Producer::Insert`,
modelled separately). -/
def CreateArray (sizeofNode dataAlignment sizeofHeapArrayHeader objectAlignment arrayOffset : Nat)
    (instanceSize : Int) (count : Nat) (nodeAddr : Nat) : ArrayCreation :=
  { dataSize := ArrayAllocatedDataSize sizeofHeapArrayHeader objectAlignment instanceSize count
    storedCount := count
    arrayAddr := Node.Data sizeofNode dataAlignment nodeAddr + arrayOffset }

/-! ## Registry storage model

`ObjectFactoryStorage` and its `Producer` / `Consumer` / `Iterable` classes.
Nodes are identified by `Nat` addresses; the `next_` owning links form a
finite heap, modelled as an association list (later writes shadow earlier
ones). A moved-from `unique_ptr` becomes `none`, exactly as in the source. -/

abbrev NodeId := Nat

/-- The `next_` links of all allocated nodes. -/
def Heap := List (NodeId × Option NodeId)

/-- Read a node's `next_` pointer. -/
def hNext (h : Heap) (n : NodeId) : Option NodeId :=
  match h.find? (fun e => e.1 == n) with
  | some e => e.2
  | none => none

/-- Write a node's `next_` pointer. -/
def hSet (h : Heap) (n : NodeId) (v : Option NodeId) : Heap := (n, v) :: h

/-- The list of nodes reached from `r` by following `next_` links, ending in
the continuation pointer `r_end` (for a whole chain, `none`). -/
def Chain (h : Heap) : Option NodeId → Option NodeId → List NodeId → Prop
  | r, rEnd, [] => r = rEnd
  | r, rEnd, x :: xs => r = some x ∧ Chain h (hNext h x) rEnd xs

/-- Fuel-bounded forward iteration from `r` (the `Iterator` loop). -/
def chainList (h : Heap) : Option NodeId → Nat → List NodeId
  | _, 0 => []
  | none, _ + 1 => []
  | some n, fuel + 1 => n :: chainList h (hNext h n) fuel

/-- The `root_` / `last_` / `size_` triple shared by `ObjectFactoryStorage`,
`Producer` and `Consumer`. -/
structure ChainState where
  root : Option NodeId
  last : Option NodeId
  size : Nat
  deriving DecidableEq, Repr

def ChainState.empty : ChainState := ⟨none, none, 0⟩

/-- One `ObjectFactoryStorage` with one `Producer` and one `Consumer`
attached, plus the heap of `next_` links and a fresh-address counter for the
allocator. -/
structure SystemState where
  heap : Heap
  storage : ChainState
  producer : ChainState
  consumer : ChainState
  nextId : Nat

def initState : SystemState :=
  { heap := [], storage := .empty, producer := .empty, consumer := .empty, nextId := 0 }

/-- `Producer::Insert`: create a node (fresh address, `next_` initialized to
null by the default-constructed `unique_ptr`), link it after `last_` (or make
it the root), update `last_` and `size_`.  The `root_ ≠ null ∧ last_ = null`
case is ruled out by `AssertCorrect` and left as a no-op here. -/
def producerInsert (st : SystemState) : SystemState :=
  let n := st.nextId
  let h1 := hSet st.heap n none
  match st.producer.root with
  | none =>
    { st with heap := h1,
              producer := ⟨some n, some n, st.producer.size + 1⟩,
              nextId := n + 1 }
  | some _ =>
    match st.producer.last with
    | some l =>
      { st with heap := hSet h1 l (some n),
                producer := ⟨st.producer.root, some n, st.producer.size + 1⟩,
                nextId := n + 1 }
    | none => st

/-- `Producer::Publish`.  Returns the new state together with a flag recording
whether the registry lock was acquired (the early return on an empty producer
happens before `std::lock_guard`). -/
def publish (st : SystemState) : SystemState × Bool :=
  match st.producer.root with
  | none => (st, false)
  | some pr =>
    let h1 :=
      match st.storage.root, st.storage.last with
      | some _, some l => hSet st.heap l (some pr)
      -- registry empty: no write through last_; the root-nonnull/last-null
      -- state is excluded by AssertCorrectUnsafe and left as a no-write here
      | _, _ => st.heap
    let newRoot :=
      match st.storage.root with
      | none => some pr
      | some r => some r
    ({ st with
        heap := h1,
        storage := ⟨newRoot, st.producer.last, st.storage.size + st.producer.size⟩,
        producer := .empty }, true)

/-- Forward iteration of the registry chain, with fuel `size_` (under
well-formedness this is exactly the whole chain). -/
def storageChain (st : SystemState) : List NodeId :=
  chainList st.heap st.storage.root st.storage.size

/-- `ObjectFactoryStorage::ExtractUnsafe`.  Returns
`(new state, extracted node, node the iterator advances to)`, or `none` when a
precondition of the C++ (the `RuntimeAssert root_ != nullptr`, or validity of
the iterator's recorded `previousNode_`) is violated. -/
def extractUnsafe (st : SystemState) (previousNode : Option NodeId) :
    Option (SystemState × NodeId × Option NodeId) :=
  match st.storage.root with
  | none => none
  | some rootNode =>
    match previousNode with
    | none =>
      -- extracting the root: node = move(root_); root_ = move(node->next_)
      let newRoot := hNext st.heap rootNode
      let h1 := hSet st.heap rootNode none
      let newLast := match newRoot with | none => none | some _ => st.storage.last
      some ({ st with heap := h1,
                      storage := ⟨newRoot, newLast, st.storage.size - 1⟩ },
            rootNode, newRoot)
    | some p =>
      if p ∈ storageChain st then
        match hNext st.heap p with
        | none => none
        | some n =>
          -- node = move(previousNode->next_); previousNode->next_ = move(node->next_)
          let nn := hNext st.heap n
          let h1 := hSet (hSet st.heap p nn) n none
          let newLast := match nn with | none => some p | some _ => st.storage.last
          some ({ st with heap := h1,
                          storage := ⟨st.storage.root, newLast, st.storage.size - 1⟩ },
                n, nn)
      else none

/-- `Consumer::Insert` (the extracted node arrives with `next_ == null`). -/
def consumerInsert (st : SystemState) (n : NodeId) : SystemState :=
  match st.consumer.root with
  | none => { st with consumer := ⟨some n, some n, st.consumer.size + 1⟩ }
  | some _ =>
    match st.consumer.last with
    | some l =>
      { st with heap := hSet st.heap l (some n),
                consumer := ⟨st.consumer.root, some n, st.consumer.size + 1⟩ }
    | none => st

/-- The operations of the claim: `Producer::Insert`, `Producer::Publish`,
`Iterable::EraseAndAdvance`, `Iterable::MoveAndAdvance` (the latter two
identified by the iterator's recorded predecessor). -/
inductive Op where
  | insert : Op
  | publish : Op
  | erase (previousNode : Option NodeId) : Op
  | move (previousNode : Option NodeId) : Op

def step (st : SystemState) : Op → Option SystemState
  | .insert => some (producerInsert st)
  | .publish => some (publish st).1
  | .erase prev => (extractUnsafe st prev).map (fun r => r.1)
  | .move prev => (extractUnsafe st prev).map (fun r => consumerInsert r.1 r.2.1)

def run (st : SystemState) : List Op → Option SystemState
  | [] => some st
  | op :: ops => (step st op).bind (fun st1 => run st1 ops)

/-! ### Heap and chain lemmas -/

@[simp]
theorem hNext_hSet (h : Heap) (n : NodeId) (v : Option NodeId) (m : NodeId) :
    hNext (hSet h n v) m = if m = n then v else hNext h m := by
  by_cases hmn : m = n
  · subst hmn
    simp [hNext, hSet, List.find?]
  · have hb : (n == m) = false := by
      simp [Ne.symm hmn]
    simp [hNext, hSet, List.find?, hb, hmn]

@[simp]
theorem chain_nil (h : Heap) (r rEnd : Option NodeId) :
    Chain h r rEnd [] ↔ r = rEnd := Iff.rfl

@[simp]
theorem chain_cons (h : Heap) (r rEnd : Option NodeId) (x : NodeId) (xs : List NodeId) :
    Chain h r rEnd (x :: xs) ↔ r = some x ∧ Chain h (hNext h x) rEnd xs := Iff.rfl

theorem chain_congr {h h2 : Heap} {r rEnd : Option NodeId} {l : List NodeId}
    (hagree : ∀ x ∈ l, hNext h2 x = hNext h x) (hc : Chain h r rEnd l) :
    Chain h2 r rEnd l := by
  induction l generalizing r with
  | nil => exact hc
  | cons x xs ih =>
    obtain ⟨rfl, hrest⟩ := hc
    refine ⟨rfl, ?_⟩
    rw [hagree x (by simp)]
    exact ih (fun y hy => hagree y (by simp [hy])) hrest

theorem chain_append {h : Heap} {r rEnd : Option NodeId} {l1 l2 : List NodeId} :
    Chain h r rEnd (l1 ++ l2) ↔ ∃ rm, Chain h r rm l1 ∧ Chain h rm rEnd l2 := by
  induction l1 generalizing r with
  | nil =>
    simp only [List.nil_append, chain_nil]
    exact ⟨fun hc => ⟨r, rfl, hc⟩, fun ⟨rm, hrm, hc⟩ => hrm ▸ hc⟩
  | cons x xs ih =>
    simp only [List.cons_append, chain_cons, ih]
    constructor
    · rintro ⟨hr, rm, h1, h2⟩
      exact ⟨rm, ⟨hr, h1⟩, h2⟩
    · rintro ⟨rm, ⟨hr, h1⟩, h2⟩
      exact ⟨hr, rm, h1, h2⟩

theorem chain_concat {h : Heap} {r rEnd : Option NodeId} {l : List NodeId} {t : NodeId} :
    Chain h r rEnd (l ++ [t]) ↔ Chain h r (some t) l ∧ hNext h t = rEnd := by
  rw [chain_append]
  constructor
  · rintro ⟨rm, h1, rfl, h2⟩
    exact ⟨h1, h2⟩
  · rintro ⟨h1, h2⟩
    exact ⟨some t, h1, rfl, h2⟩

theorem chain_none {h : Heap} {l : List NodeId} (hc : Chain h none none l) : l = [] := by
  cases l with
  | nil => rfl
  | cons x xs => exact absurd hc.1 (by simp)

theorem chain_ne_nil {h : Heap} {x : NodeId} {l : List NodeId}
    (hc : Chain h (some x) none l) : l ≠ [] := by
  cases l with
  | nil => exact absurd hc (by simp)
  | cons y ys => simp

theorem chain_to_chainList {h : Heap} {r : Option NodeId} {l : List NodeId}
    (hc : Chain h r none l) : chainList h r l.length = l := by
  induction l generalizing r with
  | nil => obtain rfl := hc; rfl
  | cons x xs ih =>
    obtain ⟨rfl, hrest⟩ := hc
    simp [chainList, ih hrest]

theorem chain_last {h : Heap} {r : Option NodeId} {l : List NodeId}
    (hc : Chain h r none l) (hne : l ≠ []) :
    ∃ t, l.getLast? = some t ∧ hNext h t = none := by
  obtain ⟨l2, t, rfl⟩ := (List.eq_nil_or_concat l).resolve_left hne
  rw [List.concat_eq_append] at hc ⊢
  obtain ⟨h1, h2⟩ := chain_concat.mp hc
  exact ⟨t, by simp, h2⟩

/-! ### Well-formedness -/

/-- The full invariant tying together the registry, producer and consumer
chains: each `root_`/`last_`/`size_` triple represents its list, the three
lists are disjoint and duplicate-free, and every chained node was produced by
the allocator (is below the fresh-address counter). -/
structure SysWF (st : SystemState) (ls lp lc : List NodeId) : Prop where
  hs : Chain st.heap st.storage.root none ls
  hsSize : st.storage.size = ls.length
  hsLast : st.storage.last = ls.getLast?
  hp : Chain st.heap st.producer.root none lp
  hpSize : st.producer.size = lp.length
  hpLast : st.producer.last = lp.getLast?
  hc : Chain st.heap st.consumer.root none lc
  hcSize : st.consumer.size = lc.length
  hcLast : st.consumer.last = lc.getLast?
  nodup : (ls ++ lp ++ lc).Nodup
  fresh : ∀ x ∈ ls ++ lp ++ lc, x < st.nextId

def WFSystem (st : SystemState) : Prop := ∃ ls lp lc, SysWF st ls lp lc

/-- Registry well-formedness as stated by the spec: `root_`/`last_`/`size_`
agree, the tail has no successor, and forward iteration from the head visits
exactly `size_` nodes, each exactly once. -/
def StorageWF (st : SystemState) : Prop :=
  Chain st.heap st.storage.root none (storageChain st) ∧
  (storageChain st).length = st.storage.size ∧
  (storageChain st).Nodup ∧
  st.storage.last = (storageChain st).getLast? ∧
  (st.storage.root = none ↔ st.storage.last = none) ∧
  (st.storage.root = none ↔ st.storage.size = 0) ∧
  (∀ t, st.storage.last = some t → hNext st.heap t = none)

theorem SysWF.storageList_eq {st : SystemState} {ls lp lc : List NodeId}
    (hwf : SysWF st ls lp lc) : storageChain st = ls := by
  rw [storageChain, hwf.hsSize]
  exact chain_to_chainList hwf.hs

theorem SysWF.rootIffNil {st : SystemState} {ls lp lc : List NodeId}
    (hwf : SysWF st ls lp lc) : st.storage.root = none ↔ ls = [] := by
  constructor
  · intro hroot
    exact chain_none (hroot ▸ hwf.hs)
  · intro hnil
    have := hwf.hs
    rw [hnil] at this
    exact this

theorem SysWF.storageWF {st : SystemState} {ls lp lc : List NodeId}
    (hwf : SysWF st ls lp lc) : StorageWF st := by
  have hls := hwf.storageList_eq
  have hnls : ls.Nodup := (List.nodup_append.mp (List.nodup_append.mp hwf.nodup).1).1
  unfold StorageWF
  rw [hls]
  refine ⟨hwf.hs, hwf.hsSize.symm, hnls, hwf.hsLast, ?_, ?_, ?_⟩
  · rw [hwf.rootIffNil, hwf.hsLast]
    cases ls <;> simp
  · rw [hwf.rootIffNil, hwf.hsSize]
    cases ls <;> simp
  · intro t ht
    rw [hwf.hsLast] at ht
    have hne : ls ≠ [] := by
      rintro rfl
      simp at ht
    obtain ⟨t2, h1, h2⟩ := chain_last hwf.hs hne
    rw [ht] at h1
    obtain rfl := Option.some.inj h1
    exact h2

/-! ### Operation correctness -/

theorem nodup_parts {l1 l2 l3 : List NodeId} (h : ((l1 ++ l2) ++ l3).Nodup) :
    l1.Nodup ∧ l2.Nodup ∧ l3.Nodup ∧
    l1.Disjoint l2 ∧ l1.Disjoint l3 ∧ l2.Disjoint l3 := by
  obtain ⟨h12, h3, hd3⟩ := List.nodup_append.mp h
  obtain ⟨h1, h2, hd12⟩ := List.nodup_append.mp h12
  refine ⟨h1, h2, h3, hd12, ?_, ?_⟩
  · exact fun a ha => hd3 (List.mem_append_left _ ha)
  · exact fun a ha => hd3 (List.mem_append_right _ ha)

theorem nodup_insert_middle {l1 l2 l3 : List NodeId} {n : NodeId}
    (hnd : ((l1 ++ l2) ++ l3).Nodup) (hn : n ∉ (l1 ++ l2) ++ l3) :
    ((l1 ++ (l2 ++ [n])) ++ l3).Nodup := by
  have hshape : (l1 ++ (l2 ++ [n])) ++ l3 = (l1 ++ l2) ++ (n :: l3) := by
    simp [List.append_assoc]
  rw [hshape]
  have hperm : List.Perm ((l1 ++ l2) ++ (n :: l3)) (n :: ((l1 ++ l2) ++ l3)) :=
    List.perm_middle
  exact hperm.symm.nodup (List.nodup_cons.mpr ⟨hn, hnd⟩)

theorem fresh_insert_middle {l1 l2 l3 : List NodeId} {n : NodeId}
    (hf : ∀ x ∈ (l1 ++ l2) ++ l3, x < n) :
    ∀ x ∈ (l1 ++ (l2 ++ [n])) ++ l3, x < n + 1 := by
  intro x hx
  rcases List.mem_append.mp hx with hx | hx
  · rcases List.mem_append.mp hx with hx | hx
    · exact Nat.lt_succ_of_lt (hf x (List.mem_append_left _ (List.mem_append_left _ hx)))
    · rcases List.mem_append.mp hx with hx | hx
      · exact Nat.lt_succ_of_lt (hf x (List.mem_append_left _ (List.mem_append_right _ hx)))
      · rw [List.mem_singleton] at hx
        subst hx
        exact Nat.lt_succ_self x
  · exact Nat.lt_succ_of_lt (hf x (List.mem_append_right _ hx))

/-- `Producer::Insert` appends the freshly created node (with null `next_`) at
the producer's private tail and touches nothing else. -/
theorem producerInsert_spec {st : SystemState} {ls lp lc : List NodeId}
    (hwf : SysWF st ls lp lc) :
    SysWF (producerInsert st) ls (lp ++ [st.nextId]) lc ∧
    (producerInsert st).storage = st.storage ∧
    (producerInsert st).consumer = st.consumer ∧
    hNext (producerInsert st).heap st.nextId = none ∧
    (producerInsert st).producer.size = st.producer.size + 1 ∧
    (producerInsert st).producer.last = some st.nextId ∧
    (producerInsert st).nextId = st.nextId + 1 := by
  obtain ⟨hnls, hnlp, hnlc, hd_sp, hd_sc, hd_pc⟩ := nodup_parts hwf.nodup
  have hfr : ∀ x ∈ (ls ++ lp) ++ lc, x ≠ st.nextId :=
    fun x hx => Nat.ne_of_lt (hwf.fresh x hx)
  have hfr_ls : ∀ x ∈ ls, x ≠ st.nextId :=
    fun x hx => hfr x (by simp [hx])
  have hfr_lp : ∀ x ∈ lp, x ≠ st.nextId :=
    fun x hx => hfr x (by simp [hx])
  have hfr_lc : ∀ x ∈ lc, x ≠ st.nextId :=
    fun x hx => hfr x (by simp [hx])
  have hnmem : st.nextId ∉ (ls ++ lp) ++ lc := by
    intro hx
    exact hfr _ hx rfl
  cases hroot : st.producer.root with
  | none =>
    have hlp : lp = [] := chain_none (hroot ▸ hwf.hp)
    subst hlp
    simp only [producerInsert, hroot]
    refine ⟨?_, by trivial, by trivial, by simp, by trivial, by trivial, by trivial⟩
    refine ⟨?_, hwf.hsSize, hwf.hsLast, ?_, ?_, ?_, ?_, hwf.hcSize, hwf.hcLast, ?_, ?_⟩
    · exact chain_congr (fun x hx => by simp [hNext_hSet, hfr_ls x hx]) hwf.hs
    · exact ⟨rfl, by simp [hNext_hSet]⟩
    · simp [hwf.hpSize]
    · simp
    · exact chain_congr (fun x hx => by simp [hNext_hSet, hfr_lc x hx]) hwf.hc
    · exact nodup_insert_middle hwf.nodup hnmem
    · exact fresh_insert_middle hwf.fresh
  | some pr =>
    have hlpne : lp ≠ [] := chain_ne_nil (hroot ▸ hwf.hp)
    obtain ⟨lp0, t, rfl⟩ := (List.eq_nil_or_concat lp).resolve_left hlpne
    rw [List.concat_eq_append] at *
    have hlast : st.producer.last = some t := by
      rw [hwf.hpLast]
      simp
    have htlp : t ∈ lp0 ++ [t] := by simp
    have htn : t ≠ st.nextId := hfr_lp t htlp
    have hne_ls : ∀ x ∈ ls, x ≠ t := fun x hx heq => hd_sp hx (heq ▸ htlp)
    have hne_lc : ∀ x ∈ lc, x ≠ t := fun x hx heq => hd_pc (heq ▸ htlp) hx
    have hne_lp0 : ∀ x ∈ lp0, x ≠ t :=
      fun x hx heq => ((List.nodup_append.mp hnlp).2.2 (heq ▸ hx)) (by simp)
    simp only [producerInsert, hroot, hlast]
    refine ⟨?_, by trivial, by trivial, by simp [hNext_hSet, Ne.symm htn], by trivial,
      by trivial, by trivial⟩
    refine ⟨?_, hwf.hsSize, hwf.hsLast, ?_, ?_, ?_, ?_, hwf.hcSize, hwf.hcLast, ?_, ?_⟩
    · exact chain_congr
        (fun x hx => by simp [hNext_hSet, hfr_ls x hx, hne_ls x hx]) hwf.hs
    · obtain ⟨hchain0, hlastnone⟩ := chain_concat.mp hwf.hp
      rw [hroot] at hchain0
      rw [List.append_assoc]
      rw [show [t] ++ [st.nextId] = [t, st.nextId] from rfl]
      refine chain_append.mpr ⟨some t, ?_, ?_⟩
      · exact chain_congr
          (fun x hx => by simp [hNext_hSet, hfr_lp x (by simp [hx]), hne_lp0 x hx]) hchain0
      · refine ⟨rfl, ?_, ?_⟩
        · simp [hNext_hSet]
        · simp [hNext_hSet, Ne.symm htn]
    · simp [hwf.hpSize]
    · simp
    · exact chain_congr
        (fun x hx => by simp [hNext_hSet, hfr_lc x hx, hne_lc x hx]) hwf.hc
    · exact nodup_insert_middle hwf.nodup hnmem
    · exact fresh_insert_middle hwf.fresh

/-- `Producer::Publish` splices the producer chain after the registry tail,
sums the sizes, empties the producer, and skips the lock (and every state
change) when the producer is empty. -/
theorem publish_spec {st : SystemState} {ls lp lc : List NodeId}
    (hwf : SysWF st ls lp lc) :
    SysWF (publish st).1 (ls ++ lp) [] lc ∧
    (publish st).1.storage.size = st.storage.size + st.producer.size ∧
    (publish st).1.producer.root = none ∧
    (publish st).1.producer.last = none ∧
    (publish st).1.producer.size = 0 ∧
    (publish st).1.consumer = st.consumer ∧
    (publish st).1.nextId = st.nextId ∧
    (lp = [] → (publish st).1 = st ∧ (publish st).2 = false) ∧
    (lp ≠ [] → (publish st).2 = true) := by
  obtain ⟨hnls, hnlp, hnlc, hd_sp, hd_sc, hd_pc⟩ := nodup_parts hwf.nodup
  cases hroot : st.producer.root with
  | none =>
    have hlp : lp = [] := chain_none (hroot ▸ hwf.hp)
    subst hlp
    have hpsize : st.producer.size = 0 := by
      rw [hwf.hpSize]
      rfl
    have hplast : st.producer.last = none := by
      rw [hwf.hpLast]
      rfl
    have heq : publish st = (st, false) := by
      simp only [publish, hroot]
    rw [heq]
    refine ⟨?_, ?_, hroot, hplast, hpsize, rfl, rfl, fun _ => ⟨rfl, rfl⟩,
      fun hne => absurd rfl hne⟩
    swap
    · show st.storage.size = st.storage.size + st.producer.size
      omega
    rw [List.append_nil]
    exact hwf
  | some pr =>
    have hlpne : lp ≠ [] := chain_ne_nil (hroot ▸ hwf.hp)
    have hp2 : Chain st.heap (some pr) none lp := hroot ▸ hwf.hp
    cases hsroot : st.storage.root with
    | none =>
      have hls : ls = [] := chain_none (hsroot ▸ hwf.hs)
      subst hls
      have hssize : st.storage.size = 0 := by
        rw [hwf.hsSize]
        rfl
      have hslast : st.storage.last = none := by
        rw [hwf.hsLast]
        rfl
      simp only [publish, hroot, hsroot, hslast]
      refine ⟨?_, by simp, by trivial, by trivial, by trivial, by trivial, by trivial,
        fun h => absurd h hlpne, fun _ => by trivial⟩
      refine ⟨?_, ?_, ?_, by trivial, by rfl, by rfl, hwf.hc, hwf.hcSize, hwf.hcLast, ?_, ?_⟩
      · simpa using hp2
      · simp [hwf.hpSize, hssize]
      · simpa using hwf.hpLast
      · simpa using hwf.nodup
      · simpa using hwf.fresh
    | some r0 =>
      have hlsne : ls ≠ [] := chain_ne_nil (hsroot ▸ hwf.hs)
      obtain ⟨ls0, t, rfl⟩ := (List.eq_nil_or_concat ls).resolve_left hlsne
      rw [List.concat_eq_append] at *
      have hslast : st.storage.last = some t := by
        rw [hwf.hsLast]
        simp
      have htls : t ∈ ls0 ++ [t] := by simp
      have hne_lp : ∀ x ∈ lp, x ≠ t := fun x hx heq => hd_sp (heq ▸ htls) hx
      have hne_lc : ∀ x ∈ lc, x ≠ t := fun x hx heq => hd_sc (heq ▸ htls) hx
      have hne_ls0 : ∀ x ∈ ls0, x ≠ t :=
        fun x hx heq => ((List.nodup_append.mp hnls).2.2 (heq ▸ hx)) (by simp)
      obtain ⟨hchain0, hlastnone⟩ := chain_concat.mp hwf.hs
      rw [hsroot] at hchain0
      simp only [publish, hroot, hsroot, hslast]
      refine ⟨?_, by trivial, by trivial, by trivial, by trivial, by trivial, by trivial,
        fun h => absurd h hlpne, fun _ => by trivial⟩
      refine ⟨?_, ?_, ?_, by trivial, by rfl, by rfl, ?_, hwf.hcSize, hwf.hcLast, ?_, ?_⟩
      · refine chain_append.mpr ⟨some pr, chain_concat.mpr ⟨?_, ?_⟩, ?_⟩
        · exact chain_congr (fun x hx => by simp [hNext_hSet, hne_ls0 x hx]) hchain0
        · simp [hNext_hSet]
        · exact chain_congr (fun x hx => by simp [hNext_hSet, hne_lp x hx]) hp2
      · simp only [hwf.hsSize, hwf.hpSize, List.length_append, List.length_singleton]
      · rw [hwf.hpLast, List.getLast?_append_of_ne_nil _ hlpne]
      · exact chain_congr (fun x hx => by simp [hNext_hSet, hne_lc x hx]) hwf.hc
      · simpa using hwf.nodup
      · simpa using hwf.fresh

theorem nodup_snoc_third {l1 l2 l3 : List NodeId} {n : NodeId}
    (hnd : ((l1 ++ l2) ++ l3).Nodup) (hn : n ∉ (l1 ++ l2) ++ l3) :
    ((l1 ++ l2) ++ (l3 ++ [n])).Nodup := by
  have hshape : (l1 ++ l2) ++ (l3 ++ [n]) = ((l1 ++ l2) ++ l3) ++ [n] := by
    simp [List.append_assoc]
  rw [hshape]
  have hperm : List.Perm (((l1 ++ l2) ++ l3) ++ [n]) (n :: ((l1 ++ l2) ++ l3)) := by
    have hpc : List.Perm (((l1 ++ l2) ++ l3) ++ [n]) ([n] ++ ((l1 ++ l2) ++ l3)) :=
      List.perm_append_comm
    simpa using hpc
  exact hperm.symm.nodup (List.nodup_cons.mpr ⟨hn, hnd⟩)

/-- The head pointer of the continuation of a chain equals `head?` of the
represented suffix. -/
theorem chain_head {h : Heap} {r : Option NodeId} {l : List NodeId}
    (hc : Chain h r none l) : r = l.head? := by
  cases l with
  | nil => exact hc
  | cons x xs => exact hc.1

/-- `ObjectFactoryStorage::ExtractUnsafe` unlinks exactly the node after the
iterator's recorded predecessor, hands it out with a null `next_`, advances
the iterator to its old successor, decrements `size_` and maintains `last_`;
every other node and the relative order are untouched. -/
theorem extractUnsafe_spec {st : SystemState} {ls lp lc lpre l2 : List NodeId} {n : NodeId}
    (hwf : SysWF st ls lp lc) (hls : ls = lpre ++ n :: l2) :
    ∃ st2,
      extractUnsafe st lpre.getLast? = some (st2, n, l2.head?) ∧
      SysWF st2 (lpre ++ l2) lp lc ∧
      st2.storage.size = st.storage.size - 1 ∧
      st2.producer = st.producer ∧
      st2.consumer = st.consumer ∧
      st2.nextId = st.nextId ∧
      hNext st2.heap n = none ∧
      n < st.nextId ∧
      n ∉ ((lpre ++ l2) ++ lp) ++ lc := by
  subst hls
  obtain ⟨hnls, hnlp, hnlc, hd_sp, hd_sc, hd_pc⟩ := nodup_parts hwf.nodup
  have hnmem_n : n ∈ lpre ++ n :: l2 := by simp
  have hfr_n : n < st.nextId := hwf.fresh n (by simp [hnmem_n])
  have hn_lp : n ∉ lp := fun hx => hd_sp hnmem_n hx
  have hn_lc : n ∉ lc := fun hx => hd_sc hnmem_n hx
  have hn_new : n ∉ lpre ++ l2 := by
    intro hx
    obtain ⟨h1, h2, hd⟩ := List.nodup_append.mp hnls
    rcases List.mem_append.mp hx with hx | hx
    · exact (hd hx) (by simp)
    · exact (List.nodup_cons.mp h2).1 hx
  have hsub : List.Sublist (((lpre ++ l2) ++ lp) ++ lc) (((lpre ++ n :: l2) ++ lp) ++ lc) :=
    (((List.sublist_cons_self n l2).append_left lpre).append_right lp).append_right lc
  have hnodup2 : (((lpre ++ l2) ++ lp) ++ lc).Nodup := hwf.nodup.sublist hsub
  have hfresh2 : ∀ x ∈ ((lpre ++ l2) ++ lp) ++ lc, x < st.nextId :=
    fun x hx => hwf.fresh x (hsub.subset hx)
  have hnmem2 : n ∉ ((lpre ++ l2) ++ lp) ++ lc := by
    intro hx
    rcases List.mem_append.mp hx with hx | hx
    · rcases List.mem_append.mp hx with hx | hx
      · exact hn_new hx
      · exact hn_lp hx
    · exact hn_lc hx
  rcases List.eq_nil_or_concat lpre with rfl | ⟨lq, p, rfl⟩
  · -- extracting the root: previousNode = none
    simp only [List.nil_append] at hwf hnls hd_sp hd_sc hn_new hnmem2 hnodup2 hfresh2 ⊢
    have hsroot : st.storage.root = some n := hwf.hs.1
    have hl2chain : Chain st.heap (hNext st.heap n) none l2 := hwf.hs.2
    have hnr : hNext st.heap n = l2.head? := chain_head hl2chain
    have hx_l2 : ∀ x ∈ l2, x ≠ n := by
      intro x hx heq
      exact hn_new (heq ▸ hx)
    simp only [extractUnsafe, hsroot, List.getLast?_nil]
    rw [hnr]
    refine ⟨_, rfl, ?_, ?_, rfl, rfl, rfl, by simp [hNext_hSet], hfr_n, hnmem2⟩
    · refine ⟨?_, ?_, ?_, ?_, hwf.hpSize, hwf.hpLast, ?_, hwf.hcSize, hwf.hcLast, hnodup2, hfresh2⟩
      · exact chain_congr (fun x hx => by simp [hNext_hSet, hx_l2 x hx]) (hnr ▸ hl2chain)
      · have := hwf.hsSize
        simp only [List.length_cons] at this
        simp [this]
      · show (match l2.head? with | none => none | some _ => st.storage.last) = l2.getLast?
        cases l2 with
        | nil => rfl
        | cons m l2x =>
          show st.storage.last = (m :: l2x).getLast?
          rw [hwf.hsLast]
          exact List.getLast?_cons_cons
      · refine chain_congr (fun x hx => ?_) hwf.hp
        have hxn : x ≠ n := fun heq => hn_lp (heq ▸ hx)
        simp [hNext_hSet, hxn]
      · refine chain_congr (fun x hx => ?_) hwf.hc
        have hxn : x ≠ n := fun heq => hn_lc (heq ▸ hx)
        simp [hNext_hSet, hxn]
    · show st.storage.size - 1 = st.storage.size - 1
      rfl
  · -- extracting after predecessor p = last of lpre
    simp only [List.concat_eq_append] at *
    have hlsne : (lq ++ [p]) ++ n :: l2 ≠ [] := by simp
    cases hsr : st.storage.root with
    | none =>
      exact absurd (chain_none (hsr ▸ hwf.hs)) hlsne
    | some r0 =>
      obtain ⟨rm, hchain_pre, hchain_tail⟩ := chain_append.mp hwf.hs
      obtain ⟨rfl, hl2chain⟩ : rm = some n ∧ Chain st.heap (hNext st.heap n) none l2 :=
        hchain_tail
      obtain ⟨hchain_lq, hpn⟩ := chain_concat.mp hchain_pre
      rw [hsr] at hchain_lq
      have hnr : hNext st.heap n = l2.head? := chain_head hl2chain
      have hmem : p ∈ storageChain st := by
        rw [hwf.storageList_eq]
        simp
      have hp_mem : p ∈ (lq ++ [p]) ++ n :: l2 := by simp
      obtain ⟨hnd_pre, hnd_tail, hd_pre_tail⟩ := List.nodup_append.mp hnls
      have hpn_ne : p ≠ n := by
        intro heq
        subst heq
        exact hd_pre_tail (show p ∈ lq ++ [p] by simp) (show p ∈ p :: l2 by simp)
      have hx_lq_p : ∀ x ∈ lq, x ≠ p :=
        fun x hx heq => (List.nodup_append.mp hnd_pre).2.2 (heq ▸ hx) (by simp)
      have hx_lq_n : ∀ x ∈ lq, x ≠ n :=
        fun x hx heq => hd_pre_tail (List.mem_append_left _ hx) (heq ▸ (by simp))
      have hx_l2_n : ∀ x ∈ l2, x ≠ n :=
        fun x hx heq => (List.nodup_cons.mp hnd_tail).1 (heq ▸ hx)
      have hx_l2_p : ∀ x ∈ l2, x ≠ p :=
        fun x hx heq => hd_pre_tail (by simp) (List.mem_cons_of_mem _ (heq ▸ hx))
      have hx_lp_np : ∀ x ∈ lp, x ≠ n ∧ x ≠ p := by
        intro x hx
        constructor
        · intro heq
          exact hd_sp (heq ▸ hnmem_n) hx
        · intro heq
          exact hd_sp (heq ▸ hp_mem) hx
      have hx_lc_np : ∀ x ∈ lc, x ≠ n ∧ x ≠ p := by
        intro x hx
        constructor
        · intro heq
          exact hd_sc (heq ▸ hnmem_n) hx
        · intro heq
          exact hd_sc (heq ▸ hp_mem) hx
      have hgl : ((lq ++ [p]) : List NodeId).getLast? = some p := by simp
      rw [hgl]
      simp only [extractUnsafe, hsr, hmem, if_true, hpn]
      rw [hnr]
      refine ⟨_, rfl, ?_, ?_, rfl, rfl, rfl, by simp [hNext_hSet], hfr_n, hnmem2⟩
      · refine ⟨?_, ?_, ?_, ?_, hwf.hpSize, hwf.hpLast, ?_, hwf.hcSize, hwf.hcLast,
          hnodup2, hfresh2⟩
        · refine chain_append.mpr ⟨l2.head?, chain_concat.mpr ⟨?_, ?_⟩, ?_⟩
          · exact chain_congr
              (fun x hx => by simp [hNext_hSet, hx_lq_n x hx, hx_lq_p x hx]) hchain_lq
          · simp [hNext_hSet, hpn_ne]
          · exact chain_congr
              (fun x hx => by simp [hNext_hSet, hx_l2_n x hx, hx_l2_p x hx]) (hnr ▸ hl2chain)
        · have := hwf.hsSize
          simp only [List.length_append, List.length_cons, List.length_singleton] at this
          simp only [List.length_append, List.length_cons, List.length_singleton, this]
          omega
        · show (match l2.head? with | none => some p | some _ => st.storage.last) =
            ((lq ++ [p]) ++ l2).getLast?
          cases l2 with
          | nil => simp
          | cons m l2x =>
            show st.storage.last = ((lq ++ [p]) ++ m :: l2x).getLast?
            rw [hwf.hsLast, List.getLast?_append_cons, List.getLast?_append_cons,
              List.getLast?_cons_cons]
        · exact chain_congr
            (fun x hx => by simp [hNext_hSet, (hx_lp_np x hx).1, (hx_lp_np x hx).2]) hwf.hp
        · exact chain_congr
            (fun x hx => by simp [hNext_hSet, (hx_lc_np x hx).1, (hx_lc_np x hx).2]) hwf.hc
      · show st.storage.size - 1 = st.storage.size - 1
        rfl

theorem fresh_snoc_third {l1 l2 l3 : List NodeId} {n : NodeId} {k : Nat}
    (hf : ∀ x ∈ (l1 ++ l2) ++ l3, x < k) (hn : n < k) :
    ∀ x ∈ (l1 ++ l2) ++ (l3 ++ [n]), x < k := by
  intro x hx
  rcases List.mem_append.mp hx with hx | hx
  · exact hf x (List.mem_append_left _ hx)
  · rcases List.mem_append.mp hx with hx | hx
    · exact hf x (List.mem_append_right _ hx)
    · rw [List.mem_singleton] at hx
      subst hx
      exact hn

/-- `Consumer::Insert` appends an extracted node (whose `next_` is already
null) at the consumer's tail. -/
theorem consumerInsert_spec {st : SystemState} {ls lp lc : List NodeId} {n : NodeId}
    (hwf : SysWF st ls lp lc) (hn : hNext st.heap n = none)
    (hmem : n ∉ (ls ++ lp) ++ lc) (hfr : n < st.nextId) :
    SysWF (consumerInsert st n) ls lp (lc ++ [n]) ∧
    (consumerInsert st n).storage = st.storage ∧
    (consumerInsert st n).producer = st.producer ∧
    (consumerInsert st n).consumer.size = st.consumer.size + 1 ∧
    (consumerInsert st n).consumer.last = some n ∧
    (consumerInsert st n).nextId = st.nextId := by
  obtain ⟨hnls, hnlp, hnlc, hd_sp, hd_sc, hd_pc⟩ := nodup_parts hwf.nodup
  have hn_ls : n ∉ ls := fun hx => hmem (by simp [hx])
  have hn_lp : n ∉ lp := fun hx => hmem (by simp [hx])
  have hn_lc : n ∉ lc := fun hx => hmem (by simp [hx])
  cases hcroot : st.consumer.root with
  | none =>
    have hlc : lc = [] := chain_none (hcroot ▸ hwf.hc)
    subst hlc
    simp only [consumerInsert, hcroot]
    refine ⟨?_, by trivial, by trivial, by trivial, by trivial, by trivial⟩
    refine ⟨hwf.hs, hwf.hsSize, hwf.hsLast, hwf.hp, hwf.hpSize, hwf.hpLast,
      ⟨rfl, hn⟩, by simp [hwf.hcSize], by simp, nodup_snoc_third hwf.nodup hmem,
      fresh_snoc_third hwf.fresh hfr⟩
  | some c0 =>
    have hlcne : lc ≠ [] := chain_ne_nil (hcroot ▸ hwf.hc)
    obtain ⟨lc0, t, rfl⟩ := (List.eq_nil_or_concat lc).resolve_left hlcne
    rw [List.concat_eq_append] at *
    have hclast : st.consumer.last = some t := by
      rw [hwf.hcLast]
      simp
    have htlc : t ∈ lc0 ++ [t] := by simp
    have htn : n ≠ t := fun heq => hn_lc (heq ▸ htlc)
    have hne_ls : ∀ x ∈ ls, x ≠ t := fun x hx heq => hd_sc hx (heq ▸ htlc)
    have hne_lp : ∀ x ∈ lp, x ≠ t := fun x hx heq => hd_pc hx (heq ▸ htlc)
    have hne_lc0 : ∀ x ∈ lc0, x ≠ t :=
      fun x hx heq => ((List.nodup_append.mp hnlc).2.2 (heq ▸ hx)) (by simp)
    have hc2 : Chain st.heap (some c0) none (lc0 ++ [t]) := hcroot ▸ hwf.hc
    obtain ⟨hchain0, hlastnone⟩ := chain_concat.mp hc2
    simp only [consumerInsert, hcroot, hclast]
    refine ⟨?_, by trivial, by trivial, by trivial, by trivial, by trivial⟩
    refine ⟨?_, hwf.hsSize, hwf.hsLast, ?_, hwf.hpSize, hwf.hpLast, ?_,
      by simp [hwf.hcSize], by simp, nodup_snoc_third hwf.nodup hmem,
      fresh_snoc_third hwf.fresh hfr⟩
    · exact chain_congr (fun x hx => by simp [hNext_hSet, hne_ls x hx]) hwf.hs
    · exact chain_congr (fun x hx => by simp [hNext_hSet, hne_lp x hx]) hwf.hp
    · rw [List.append_assoc]
      rw [show ([t] ++ [n] : List NodeId) = [t, n] from rfl]
      refine chain_append.mpr ⟨some t, ?_, ?_⟩
      · exact chain_congr (fun x hx => by simp [hNext_hSet, hne_lc0 x hx]) hchain0
      · refine ⟨rfl, ?_, ?_⟩
        · simp [hNext_hSet]
        · simp [hNext_hSet, htn, hn]

/-- Inversion: a successful `ExtractUnsafe` call pins down the split of the
registry chain at the iterator position. -/
theorem extractUnsafe_split {st : SystemState} {ls lp lc : List NodeId} {prev : Option NodeId}
    {res : SystemState × NodeId × Option NodeId}
    (hwf : SysWF st ls lp lc) (hex : extractUnsafe st prev = some res) :
    ∃ lpre n l2, ls = lpre ++ n :: l2 ∧ prev = lpre.getLast? := by
  cases prev with
  | none =>
    cases hsr : st.storage.root with
    | none =>
      simp only [extractUnsafe, hsr] at hex
      exact absurd hex (by simp)
    | some r =>
      have hchain := hwf.hs
      rw [hsr] at hchain
      cases hls : ls with
      | nil =>
        rw [hls] at hchain
        exact absurd hchain (by simp)
      | cons x xs =>
        exact ⟨[], x, xs, by simp [hls], by simp⟩
  | some p =>
    cases hsr : st.storage.root with
    | none =>
      simp only [extractUnsafe, hsr] at hex
      exact absurd hex (by simp)
    | some r =>
      simp only [extractUnsafe, hsr] at hex
      by_cases hm : p ∈ storageChain st
      · rw [if_pos hm] at hex
        cases hpn : hNext st.heap p with
        | none =>
          rw [hpn] at hex
          exact absurd hex (by simp)
        | some n =>
          rw [hpn] at hex
          have hmem : p ∈ ls := by
            rw [hwf.storageList_eq] at hm
            exact hm
          obtain ⟨l1, l2x, hls⟩ := List.append_of_mem hmem
          subst hls
          obtain ⟨rm, hc1, hc2⟩ := chain_append.mp hwf.hs
          obtain ⟨rfl, hc3⟩ := hc2
          rw [hpn] at hc3
          cases l2x with
          | nil => exact absurd hc3 (by simp)
          | cons m l2y =>
            obtain ⟨hm2, _⟩ := hc3
            obtain rfl := Option.some.inj hm2
            exact ⟨l1 ++ [p], n, l2y, by simp, by simp⟩
      · rw [if_neg hm] at hex
        exact absurd hex (by simp)

/-- A decision procedure for `Chain`, so that well-formedness of concrete
states can be established by evaluation. -/
def decChain (h : Heap) (rEnd : Option NodeId) :
    (l : List NodeId) → (r : Option NodeId) → Decidable (Chain h r rEnd l)
  | [], r => decidable_of_iff (r = rEnd) (chain_nil h r rEnd).symm
  | x :: xs, r =>
    have : Decidable (Chain h (hNext h x) rEnd xs) := decChain h rEnd xs (hNext h x)
    decidable_of_iff (r = some x ∧ Chain h (hNext h x) rEnd xs) (chain_cons h r rEnd x xs).symm

instance (h : Heap) (r rEnd : Option NodeId) (l : List NodeId) :
    Decidable (Chain h r rEnd l) := decChain h rEnd l r

/-- Every state reachable by running operations from the empty system is
well-formed. -/
theorem step_preserves {st st2 : SystemState} {op : Op}
    (hwf : WFSystem st) (hstep : step st op = some st2) : WFSystem st2 := by
  obtain ⟨ls, lp, lc, hwf⟩ := hwf
  cases op with
  | insert =>
    simp only [step] at hstep
    obtain rfl := Option.some.inj hstep
    exact ⟨_, _, _, (producerInsert_spec hwf).1⟩
  | publish =>
    simp only [step] at hstep
    obtain rfl := Option.some.inj hstep
    exact ⟨_, _, _, (publish_spec hwf).1⟩
  | erase prev =>
    simp only [step] at hstep
    cases hex : extractUnsafe st prev with
    | none =>
      rw [hex] at hstep
      exact absurd hstep (by simp)
    | some res =>
      rw [hex] at hstep
      simp only [Option.map] at hstep
      obtain rfl := Option.some.inj hstep
      obtain ⟨lpre, n, l2, hls, hprev⟩ := extractUnsafe_split hwf hex
      obtain ⟨stx, hexeq, hwf2, _⟩ := extractUnsafe_spec hwf hls
      rw [hprev, hexeq] at hex
      obtain rfl := Option.some.inj hex
      exact ⟨_, _, _, hwf2⟩
  | move prev =>
    simp only [step] at hstep
    cases hex : extractUnsafe st prev with
    | none =>
      rw [hex] at hstep
      exact absurd hstep (by simp)
    | some res =>
      rw [hex] at hstep
      simp only [Option.map] at hstep
      obtain rfl := Option.some.inj hstep
      obtain ⟨lpre, n, l2, hls, hprev⟩ := extractUnsafe_split hwf hex
      obtain ⟨stx, hexeq, hwf2, hsize, hprod, hcons, hnext, hnn, hfr, hnm⟩ :=
        extractUnsafe_spec hwf hls
      rw [hprev, hexeq] at hex
      obtain rfl := Option.some.inj hex
      refine ⟨_, _, _, (consumerInsert_spec hwf2 hnn hnm ?_).1⟩
      rw [hnext]
      exact hfr

theorem run_preserves {st st2 : SystemState} {ops : List Op}
    (hwf : WFSystem st) (hrun : run st ops = some st2) : WFSystem st2 := by
  induction ops generalizing st with
  | nil =>
    obtain rfl := Option.some.inj hrun
    exact hwf
  | cons op ops ih =>
    simp only [run] at hrun
    cases hstep : step st op with
    | none =>
      rw [hstep] at hrun
      exact absurd hrun (by simp)
    | some st1 =>
      rw [hstep] at hrun
      exact ih (step_preserves hwf hstep) hrun

theorem initState_wf : WFSystem initState :=
  ⟨[], [], [], ⟨rfl, rfl, rfl, rfl, rfl, rfl, rfl, rfl, rfl, List.nodup_nil, by simp⟩⟩

/-! ### Claim theorems for the registry storage -/

/-- C1: for every sequence of `Producer::Insert`, `Producer::Publish`,
`Iterable::EraseAndAdvance` and `Iterable::MoveAndAdvance` operations on an
`ObjectFactoryStorage`, afterwards `root_` is null iff `last_` is null iff
`size_ == 0`, the last node's `next_` is null whenever the chain is non-empty,
and forward iteration from the head visits exactly `size_` nodes, each exactly
once. -/
theorem registry_wellformed_invariant (ops : List Op) (st : SystemState)
    (hrun : run initState ops = some st) : StorageWF st := by
  obtain ⟨ls, lp, lc, hwf⟩ := run_preserves initState_wf hrun
  exact hwf.storageWF

def c1Ops : List Op :=
  [.insert, .insert, .insert, .publish, .insert, .publish, .erase none, .move (some 1)]

theorem registry_wellformed_invariant_witness :
    StorageWF ((run initState c1Ops).getD initState) :=
  registry_wellformed_invariant c1Ops _ rfl

/-- C2: `Producer::Publish` appends the producer's whole chain, in order,
after the registry's current tail, sets the registry size to the sum of the
two old sizes, and leaves the producer empty; publishing an empty producer
changes nothing and does not acquire the registry lock (second component of
the result). -/
theorem publish_correct {st : SystemState} {ls lp lc : List NodeId}
    (hwf : SysWF st ls lp lc) :
    Chain (publish st).1.heap (publish st).1.storage.root none (ls ++ lp) ∧
    (publish st).1.storage.size = st.storage.size + st.producer.size ∧
    (publish st).1.storage.last = (ls ++ lp).getLast? ∧
    (publish st).1.producer.root = none ∧
    (publish st).1.producer.last = none ∧
    (publish st).1.producer.size = 0 ∧
    (lp = [] → (publish st).1 = st ∧ (publish st).2 = false) ∧
    (lp ≠ [] → (publish st).2 = true) := by
  obtain ⟨h1, h2, h3, h4, h5, h6, h7, h8, h9⟩ := publish_spec hwf
  exact ⟨h1.hs, h2, h1.hsLast, h3, h4, h5, h8, h9⟩

def c2State : SystemState :=
  (run initState [.insert, .insert, .publish, .insert]).getD initState

theorem publish_correct_witness :
    Chain (publish c2State).1.heap (publish c2State).1.storage.root none ([0, 1] ++ [2]) ∧
    (publish c2State).1.storage.size = c2State.storage.size + c2State.producer.size ∧
    (publish c2State).1.storage.last = (([0, 1] ++ [2] : List NodeId)).getLast? ∧
    (publish c2State).1.producer.root = none ∧
    (publish c2State).1.producer.last = none ∧
    (publish c2State).1.producer.size = 0 ∧
    (([2] : List NodeId) = [] → (publish c2State).1 = c2State ∧ (publish c2State).2 = false) ∧
    (([2] : List NodeId) ≠ [] → (publish c2State).2 = true) :=
  publish_correct
    (⟨by decide, by decide, by decide, by decide, by decide, by decide, by decide, by decide,
      by decide, by decide, by decide⟩ : SysWF c2State [0, 1] [2] [])

/-- C3: for a non-empty registry and an iterator at node `n` with recorded
predecessor `lpre.getLast?`, `ExtractUnsafe` (the common core of
`EraseAndAdvance` and `MoveAndAdvance`) removes exactly `n`, advances the
iterator to n's old successor, decrements `size_` by one and keeps `last_`
correct; `MoveAndAdvance` additionally appends `n` to the consumer, whose size
grows by one, leaving all other nodes and their relative order unchanged. -/
theorem eraseAndAdvance_moveAndAdvance_correct {st : SystemState}
    {ls lp lc lpre l2 : List NodeId} {n : NodeId}
    (hwf : SysWF st ls lp lc) (hls : ls = lpre ++ n :: l2) :
    ∃ st2,
      extractUnsafe st lpre.getLast? = some (st2, n, l2.head?) ∧
      Chain st2.heap st2.storage.root none (lpre ++ l2) ∧
      st2.storage.size = st.storage.size - 1 ∧
      st2.storage.last = (lpre ++ l2).getLast? ∧
      n ∉ lpre ++ l2 ∧
      Chain (consumerInsert st2 n).heap (consumerInsert st2 n).consumer.root none (lc ++ [n]) ∧
      (consumerInsert st2 n).consumer.size = st.consumer.size + 1 ∧
      (consumerInsert st2 n).storage = st2.storage ∧
      Chain (consumerInsert st2 n).heap st2.storage.root none (lpre ++ l2) := by
  obtain ⟨st2, hexeq, hwf2, hsize, hprod, hcons, hnid, hnn, hfr, hnm⟩ :=
    extractUnsafe_spec hwf hls
  obtain ⟨hwf3, hst3, hpd3, hcs3, hcl3, hni3⟩ :=
    consumerInsert_spec hwf2 hnn hnm (by rw [hnid]; exact hfr)
  refine ⟨st2, hexeq, hwf2.hs, hsize, hwf2.hsLast, ?_, hwf3.hc, ?_, hst3, ?_⟩
  · intro hx
    apply hnm
    rcases List.mem_append.mp hx with h | h
    · simp [h]
    · simp [h]
  · rw [hcs3, hcons]
  · have := hwf3.hs
    rw [hst3] at this
    exact this

def c3State : SystemState :=
  (run initState [.insert, .insert, .insert, .publish]).getD initState

theorem eraseAndAdvance_moveAndAdvance_correct_witness :
    ∃ st2,
      extractUnsafe c3State ([0] : List NodeId).getLast? = some (st2, 1, ([2] : List NodeId).head?) ∧
      Chain st2.heap st2.storage.root none ([0] ++ [2]) ∧
      st2.storage.size = c3State.storage.size - 1 ∧
      st2.storage.last = (([0] ++ [2] : List NodeId)).getLast? ∧
      (1 : NodeId) ∉ ([0] ++ [2] : List NodeId) ∧
      Chain (consumerInsert st2 1).heap (consumerInsert st2 1).consumer.root none ([] ++ [1]) ∧
      (consumerInsert st2 1).consumer.size = c3State.consumer.size + 1 ∧
      (consumerInsert st2 1).storage = st2.storage ∧
      Chain (consumerInsert st2 1).heap st2.storage.root none ([0] ++ [2]) :=
  eraseAndAdvance_moveAndAdvance_correct
    (⟨by decide, by decide, by decide, by decide, by decide, by decide, by decide, by decide,
      by decide, by decide, by decide⟩ : SysWF c3State [0, 1, 2] [] [])
    (show ([0, 1, 2] : List NodeId) = [0] ++ 1 :: [2] by decide)

/-- C6: `Producer::Insert(dataSize)` requests exactly
`sizeof(Node) + AlignUp(dataSize, DataAlignment)` bytes (whenever, as in this
repository's instantiation, `alignof(Node) ≤ DataAlignment` divides
`sizeof(Node)`) with alignment `max(alignof(Node), DataAlignment)`, initializes
the new node's `next_` to null, and appends it at the producer's private tail,
leaving the existing entries and their order unchanged and incrementing the
producer's size by one. -/
theorem insert_correct {st : SystemState} {ls lp lc : List NodeId}
    (hwf : SysWF st ls lp lc)
    (sizeofNode alignofNode dataAlignment dataSize : Nat)
    (hpos : 0 < dataAlignment)
    (halign : alignofNode ≤ dataAlignment)
    (hdvd : dataAlignment ∣ sizeofNode) :
    Node.GetSizeAndAlignmentForDataSize sizeofNode alignofNode dataAlignment dataSize =
      (sizeofNode + AlignUp dataSize dataAlignment, max alignofNode dataAlignment) ∧
    hNext (producerInsert st).heap st.nextId = none ∧
    Chain (producerInsert st).heap (producerInsert st).producer.root none (lp ++ [st.nextId]) ∧
    (producerInsert st).producer.last = some st.nextId ∧
    (producerInsert st).producer.size = st.producer.size + 1 ∧
    (producerInsert st).storage = st.storage := by
  obtain ⟨h1, h2, h3, h4, h5, h6, h7⟩ := producerInsert_spec hwf
  refine ⟨?_, h4, h1.hp, h6, h5, h2⟩
  have ht : max alignofNode dataAlignment = dataAlignment := Nat.max_eq_right halign
  have hall : AlignUp (sizeofNode + AlignUp dataSize dataAlignment) dataAlignment =
      sizeofNode + AlignUp dataSize dataAlignment :=
    alignUp_eq_of_dvd _ _ hpos (dvd_add hdvd (dvd_alignUp _ _))
  simp [Node.GetSizeAndAlignmentForDataSize, ht, hall]

def c6State : SystemState :=
  (run initState [.insert, .insert]).getD initState

theorem insert_correct_witness :
    Node.GetSizeAndAlignmentForDataSize 8 8 8 13 = (8 + AlignUp 13 8, max 8 8) ∧
    hNext (producerInsert c6State).heap c6State.nextId = none ∧
    Chain (producerInsert c6State).heap (producerInsert c6State).producer.root none
      ([0, 1] ++ [c6State.nextId]) ∧
    (producerInsert c6State).producer.last = some c6State.nextId ∧
    (producerInsert c6State).producer.size = c6State.producer.size + 1 ∧
    (producerInsert c6State).storage = c6State.storage :=
  insert_correct
    (⟨by decide, by decide, by decide, by decide, by decide, by decide, by decide, by decide,
      by decide, by decide, by decide⟩ : SysWF c6State [] [0, 1] [])
    8 8 8 13 (by decide) (by decide) (by decide)

/-! ### Claim theorems for node layout and allocation sizes -/

/-- C4: `Node::FromData(n.Data())` is `n` itself, and `NodeRef::From` applied
to the handle returned by `CreateObject` (the embedded header address at
`offsetof(HeapObjHeader, object)` inside the node's data region) recovers
exactly the node the record was constructed in.  Node addresses are intrinsic
in the model — no operation rewrites them — which is the pointer-stability
half of the claim. -/
theorem nodeRef_from_roundtrip (sizeofNode dataAlignment objectOffset nodeAddr : Nat) :
    Node.FromData sizeofNode dataAlignment (Node.Data sizeofNode dataAlignment nodeAddr) =
      nodeAddr ∧
    NodeRef.From sizeofNode dataAlignment objectOffset
      (CreateObject.returnedHandle sizeofNode dataAlignment objectOffset nodeAddr) = nodeAddr := by
  constructor
  · simp [Node.FromData, Node.Data]
  · simp [NodeRef.From, CreateObject.returnedHandle, Node.FromData, Node.Data]

/-- C5: for an array type descriptor encoding the element size as
`instanceSize = -elemSize`, `CreateArray` requests a data size of
`AlignUp(sizeof(HeapArrayHeader) + elemSize * count mod 2^32, kObjectAlignment)`
— the multiplication happening in unsigned 32-bit arithmetic — stores `count`
into the embedded `count_` field and returns the embedded array header
pointer. -/
theorem createArray_correct
    (sizeofNode dataAlignment sizeofHeapArrayHeader objectAlignment arrayOffset : Nat)
    (elemSize : Nat) (instanceSize : Int) (count nodeAddr : Nat)
    (henc : instanceSize = -(elemSize : Int))
    (helem : elemSize < 2 ^ 32) (hcount : count < 2 ^ 32) :
    (CreateArray sizeofNode dataAlignment sizeofHeapArrayHeader objectAlignment arrayOffset
        instanceSize count nodeAddr).dataSize =
      AlignUp (sizeofHeapArrayHeader + elemSize * count % 2 ^ 32) objectAlignment ∧
    (CreateArray sizeofNode dataAlignment sizeofHeapArrayHeader objectAlignment arrayOffset
        instanceSize count nodeAddr).storedCount = count ∧
    (CreateArray sizeofNode dataAlignment sizeofHeapArrayHeader objectAlignment arrayOffset
        instanceSize count nodeAddr).arrayAddr =
      Node.Data sizeofNode dataAlignment nodeAddr + arrayOffset := by
  refine ⟨?_, rfl, rfl⟩
  have helem2 : elemSize < 4294967296 := by omega
  have hcast : ((-instanceSize) % (4294967296 : Int)).toNat = elemSize := by
    rw [henc, neg_neg]
    rw [Int.emod_eq_of_lt (by positivity) (by exact_mod_cast helem2)]
    exact Int.toNat_natCast elemSize
  simp [CreateArray, ArrayAllocatedDataSize, hcast]

/-- `Producer::Insert` with `Node::Create`'s allocator call made explicit:
`alloc totalSize totalAlignment = none` models an `Alloc` failure, on which
the source prints the out-of-memory message (with the requested byte count)
and calls `konan::abort()` — modelled as `.error` carrying the byte count and
the process state at the moment of the abort, which is the untouched input
state because `Create` runs before any queue field is written. -/
def producerInsertChecked (alloc : Nat → Nat → Option Nat)
    (sizeofNode alignofNode dataAlignment : Nat) (st : SystemState) (dataSize : Nat) :
    Except (Nat × SystemState) SystemState :=
  let req := Node.GetSizeAndAlignmentForDataSize sizeofNode alignofNode dataAlignment dataSize
  match alloc req.1 req.2 with
  | none => .error (req.1, st)
  | some _ => .ok (producerInsert st)

/-- C8: `Node::Create` aborts exactly on allocation failure: if the allocator
returns null for the computed request, the process aborts with an
out-of-memory message carrying the requested byte count, before any queue
state is modified (the error carries the untouched input state); if the
allocator returns a pointer, the insert proceeds normally.  No error value is
returned to the caller. -/
theorem nodeCreate_abort_on_oom (alloc : Nat → Nat → Option Nat)
    (sizeofNode alignofNode dataAlignment : Nat) (st : SystemState) (dataSize : Nat) :
    (alloc (Node.GetSizeAndAlignmentForDataSize sizeofNode alignofNode dataAlignment dataSize).1
        (Node.GetSizeAndAlignmentForDataSize sizeofNode alignofNode dataAlignment dataSize).2
        = none →
      producerInsertChecked alloc sizeofNode alignofNode dataAlignment st dataSize =
        .error ((Node.GetSizeAndAlignmentForDataSize sizeofNode alignofNode dataAlignment
          dataSize).1, st)) ∧
    (∀ p, alloc
        (Node.GetSizeAndAlignmentForDataSize sizeofNode alignofNode dataAlignment dataSize).1
        (Node.GetSizeAndAlignmentForDataSize sizeofNode alignofNode dataAlignment dataSize).2
        = some p →
      producerInsertChecked alloc sizeofNode alignofNode dataAlignment st dataSize =
        .ok (producerInsert st)) := by
  constructor
  · intro h
    simp [producerInsertChecked, h]
  · intro p h
    simp [producerInsertChecked, h]

theorem nodeCreate_abort_on_oom_witness :
    producerInsertChecked (fun _ _ => none) 8 8 8 initState 13 = .error (24, initState) ∧
    producerInsertChecked (fun _ _ => some 64) 8 8 8 initState 13 =
      .ok (producerInsert initState) :=
  ⟨(nodeCreate_abort_on_oom (fun _ _ => none) 8 8 8 initState 13).1 rfl,
   (nodeCreate_abort_on_oom (fun _ _ => some 64) 8 8 8 initState 13).2 64 rfl⟩

/-- C10: the pair computed by `GetSizeAndAlignmentForDataSize` always leaves
room for `dataSize` bytes at the fixed `DataOffset`, so the `RuntimeAssert`
in `Node::Create` can never fire (alignments are powers of two, per
`IsValidAlignment`). -/
theorem node_data_fits (sizeofNode dataSize i j : Nat) :
    Node.DataOffset sizeofNode (2 ^ j) + dataSize ≤
      (Node.GetSizeAndAlignmentForDataSize sizeofNode (2 ^ i) (2 ^ j) dataSize).1 := by
  have hda : (0 : Nat) < 2 ^ j := Nat.pos_pow_of_pos j (by omega)
  have ht : (0 : Nat) < max (2 ^ i) (2 ^ j) := lt_of_lt_of_le hda (Nat.le_max_right _ _)
  have hdvdt : 2 ^ j ∣ max (2 ^ i) (2 ^ j) := by
    have h := pow2_dvd_max j i
    rwa [Nat.max_comm] at h
  have h1 : dataSize ≤ AlignUp dataSize (2 ^ j) := le_alignUp _ _ hda
  have h2 : AlignUp sizeofNode (2 ^ j) + AlignUp dataSize (2 ^ j) =
      AlignUp (sizeofNode + AlignUp dataSize (2 ^ j)) (2 ^ j) :=
    (alignUp_add_of_dvd _ _ _ hda (dvd_alignUp _ _)).symm
  have h3 : AlignUp (sizeofNode + AlignUp dataSize (2 ^ j)) (2 ^ j) ≤
      AlignUp (sizeofNode + AlignUp dataSize (2 ^ j)) (max (2 ^ i) (2 ^ j)) :=
    alignUp_mono_align _ _ _ ht hdvdt
  show AlignUp sizeofNode (2 ^ j) + dataSize ≤ _
  calc AlignUp sizeofNode (2 ^ j) + dataSize
      ≤ AlignUp sizeofNode (2 ^ j) + AlignUp dataSize (2 ^ j) := by omega
    _ = AlignUp (sizeofNode + AlignUp dataSize (2 ^ j)) (2 ^ j) := h2
    _ ≤ AlignUp (sizeofNode + AlignUp dataSize (2 ^ j)) (max (2 ^ i) (2 ^ j)) := h3

theorem createArray_correct_witness :
    (CreateArray 8 8 16 8 8 (-4) 10 100).dataSize =
      AlignUp (16 + 4 * 10 % 2 ^ 32) 8 ∧
    (CreateArray 8 8 16 8 8 (-4) 10 100).storedCount = 10 ∧
    (CreateArray 8 8 16 8 8 (-4) 10 100).arrayAddr = Node.Data 8 8 100 + 8 :=
  createArray_correct 8 8 16 8 8 4 (-4) 10 100 (by decide) (by decide) (by decide)

/-! ## CPU-count helper (`AvaliableProcessors.cpp`) -/

/-- `availableProcessorsFallback`: `std::thread::hardware_concurrency()` cast
to `int`; nonpositive means "not implemented", treated as single-threaded. -/
def availableProcessorsFallback (hardwareConcurrency : Int) : Int :=
  if hardwareConcurrency ≤ 0 then 1 else hardwareConcurrency

/-- Population count of the low `width` bits (`__builtin_popcountll` with
`width = 64`; `CPU_COUNT` over a `cpu_set_t` with `width = 1024`). -/
def popcountBits (width n : Nat) : Nat :=
  (List.range width).countP (fun i => n.testBit i)

/-- `Konan_Platform_availableProcessors`, KONAN_WINDOWS branch: fallback if
`GetProcessAffinityMask` fails or reports `(0,0)` (several processor groups),
else `__builtin_popcountll` of the *system* affinity mask, as written in the
source. -/
def availableProcessorsWindows (querySucceeded : Bool)
    (processAffinityMask systemAffinityMask : Nat) (hardwareConcurrency : Int) : Int :=
  if !querySucceeded then availableProcessorsFallback hardwareConcurrency
  else if processAffinityMask = 0 then availableProcessorsFallback hardwareConcurrency
  else popcountBits 64 systemAffinityMask

/-- The `CPU_ALLOC` retry loop of the KONAN_LINUX branch: doubling `cpus` while
the affinity call fails and `cpus ≤ 1 <<< 16`; on success it takes
`CPU_COUNT_S` of `set` — the fixed `cpu_set_t` that was only ever zeroed.
`fuel` bounds the doubling (20 suffices from any positive start). -/
def linuxAllocLoop (dynOk : Nat → Bool) (set : Nat) : Nat → Nat → Option Nat
  | 0, _ => none
  | fuel + 1, cpus =>
    if cpus ≤ 65536 then
      if dynOk cpus then some (popcountBits 1024 set)
      else linuxAllocLoop dynOk set fuel (cpus * 2)
    else none

/-- `Konan_Platform_availableProcessors`, KONAN_LINUX branch, as written in
the source: `cpu_set_t set` is zeroed by `CPU_ZERO` and never filled — the
code calls `sched_setaffinity`, not the getter — so every success path
returns `CPU_COUNT` of the zeroed set.  `fixedOk` / `dynOk` are the outcomes
of the affinity syscalls. -/
def availableProcessorsLinux (fixedOk : Bool) (dynOk : Nat → Bool)
    (hardwareConcurrency : Int) : Int :=
  let set : Nat := 0
  if fixedOk then (popcountBits 1024 set : Int)
  else
    match linuxAllocLoop dynOk set 20 (availableProcessorsFallback hardwareConcurrency).toNat with
    | some r => (r : Int)
    | none => availableProcessorsFallback hardwareConcurrency

set_option maxRecDepth 20000 in
/-- C7 (failing input): on the Linux branch, when the affinity syscall reports
success, the function returns `CPU_COUNT` of the still-zeroed set — zero.  So
"the available-processors query returns a strictly positive integer in every
branch and for every outcome of the platform queries" fails on the code as
written; the spec itself (§9) flags this branch as a slip (`sched_setaffinity`
for a getter, `retrun`), so the code, not the claim, is wrong. -/
theorem availableProcessorsLinux_returns_zero :
    availableProcessorsLinux true (fun _ => false) 4 = 0 := by decide

/-! ## Finalizer processor (`FinalizerProcessor.hpp`) -/

/-- Modelled from the spec: the bodies of `FinalizerProcessor::ScheduleTasks`
and its worker loop are not among these sources — `FinalizerProcessor.hpp`
only declares them, promising "If no new tasks are set, epochDoneCallback
will be eventually called on last epoch".  Per the spec (§4.6), the state is
a pending-finalization queue (modelled by its node count), the most recently
scheduled epoch (`finalizerQueueEpoch_`), and whether a batch has been
scheduled since the last drain. -/
structure FinalizerProcessorState where
  pending : Nat
  latestEpoch : Int
  scheduled : Bool
  deriving DecidableEq, Repr

def FinalizerProcessorState.initial : FinalizerProcessorState :=
  { pending := 0, latestEpoch := 0, scheduled := false }

/-- Modelled from the spec: `scheduleTasks(queue, epoch)` splices the queue
onto the pending queue and records `epoch` as the most recent scheduled. -/
def ScheduleTasks (s : FinalizerProcessorState) (tasks : Nat) (epoch : Int) :
    FinalizerProcessorState :=
  { pending := s.pending + tasks, latestEpoch := epoch, scheduled := true }

/-- Modelled from the spec: one drain pass of the finalizer worker once no
further tasks arrive — it takes the whole queue, runs the finalizers, and
(the queue now being empty with no new arrivals) invokes
`epochDoneCallback(latestEpoch)`, returned as the second component. -/
def workerDrain (s : FinalizerProcessorState) : FinalizerProcessorState × Option Int :=
  if s.scheduled then
    ({ pending := 0, latestEpoch := s.latestEpoch, scheduled := false }, some s.latestEpoch)
  else (s, none)

theorem foldl_scheduleTasks (calls : List (Nat × Int)) (s0 : FinalizerProcessorState)
    (hne : calls ≠ []) :
    (calls.foldl (fun s c => ScheduleTasks s c.1 c.2) s0).scheduled = true ∧
    (calls.foldl (fun s c => ScheduleTasks s c.1 c.2) s0).latestEpoch =
      (calls.getLast hne).2 := by
  induction calls generalizing s0 with
  | nil => exact absurd rfl hne
  | cons c cs ih =>
    cases cs with
    | nil => exact ⟨rfl, rfl⟩
    | cons c2 cs2 =>
      have hne2 : (c2 :: cs2) ≠ [] := by simp
      have h := ih (ScheduleTasks s0 c.1 c.2) hne2
      rw [List.getLast_cons hne2]
      exact h

theorem sorted_le_getLast {l : List Int} (hs : l.Sorted (· ≤ ·)) {a : Int} (ha : a ∈ l)
    (hne : l ≠ []) : a ≤ l.getLast hne := by
  induction l with
  | nil => exact absurd ha (by simp)
  | cons x xs ih =>
    rw [List.sorted_cons] at hs
    cases xs with
    | nil =>
      obtain rfl : a = x := by simpa using ha
      simp [List.getLast]
    | cons y ys =>
      have hne2 : (y :: ys) ≠ [] := by simp
      rw [List.getLast_cons hne2]
      rcases List.mem_cons.mp ha with rfl | ha2
      · exact hs.1 _ (List.getLast_mem hne2)
      · exact ih hs.2 ha2 hne2

/-- C9 (spec-modelled): for every epoch `e` passed to
`FinalizerProcessor::ScheduleTasks` in a (monotone, per the epoch counter's
contract) sequence of calls, once no further tasks arrive the drained worker
invokes `epochDoneCallback` with an epoch `e2 ≥ e` — intermediate epochs may
be skipped, but the latest observed epoch is reported. -/
theorem finalizer_epoch_completion (calls : List (Nat × Int)) (tasks : Nat) (e : Int)
    (hmem : (tasks, e) ∈ calls)
    (hmono : (calls.map Prod.snd).Sorted (· ≤ ·)) :
    ∃ e2,
      (workerDrain (calls.foldl (fun s c => ScheduleTasks s c.1 c.2)
        FinalizerProcessorState.initial)).2 = some e2 ∧ e ≤ e2 := by
  have hne : calls ≠ [] := by
    rintro rfl
    simp at hmem
  obtain ⟨hsched, hlatest⟩ := foldl_scheduleTasks calls FinalizerProcessorState.initial hne
  refine ⟨(calls.getLast hne).2, ?_, ?_⟩
  · simp [workerDrain, hsched, hlatest]
  · have hmapne : calls.map Prod.snd ≠ [] := by simp [hne]
    have hmeme : e ∈ calls.map Prod.snd := List.mem_map_of_mem Prod.snd hmem
    have h := sorted_le_getLast hmono hmeme hmapne
    rwa [List.getLast_map] at h

theorem finalizer_epoch_completion_witness :
    ∃ e2,
      (workerDrain (([(2, 3), (0, 5)] : List (Nat × Int)).foldl
        (fun s c => ScheduleTasks s c.1 c.2) FinalizerProcessorState.initial)).2 = some e2 ∧
      (3 : Int) ≤ e2 :=
  finalizer_epoch_completion [(2, 3), (0, 5)] 2 3 (by decide) (by decide)

end KotlinMM
